import Mathlib

/-!
Verification of the core algorithm of `chaindtools.py`: the function
`attestation_performance(cursor, slot)`, which computes, for one slot, a
mapping from validator identifier to minimum inclusion distance (or the
sentinel -1 when no canonical attestation covered that validator).

The database cursor is modelled by the three read contracts the function
consumes (spec §6):
  * the resolved committee structure for the slot, `committee_lookup`,
    a list of committees, each a list of validator identifiers, ordered
    by committee index (the result of the `t_beacon_committees` query);
  * the attestation rows for the slot, ordered by `f_inclusion_slot`
    (the result of the `t_attestations` query), each row carrying
    (f_committee_index, f_inclusion_slot, f_aggregation_bits,
    f_beacon_block_root);
  * the canonical-block point lookup `is_canonical : root → Bool`
    (spec §6, CanonicalBlockSet of §3): the `t_blocks` query returns a
    row for a root exactly when the root belongs to the canonical set,
    so the source's `if not cursor.fetchone(): continue` is the
    canonicality filter.

Block roots are abstracted to naturals (their byte content is only ever
used as a lookup key).  Aggregation-bit payloads are byte lists (each
entry a natural below 256 in practice; only the low 8 bits of each entry
are ever inspected, matching byte semantics).  Slots are integers, since
the source computes `inclusion_slot - slot - 1` with Python integers and
never guards the sign.

A Python `IndexError` raised by `committee_lookup[committee_index]`
aborts the whole call; this is modelled with `Except`.
-/

/-- One row of the `t_attestations` result set, in source column order. -/
structure Attestation where
  committee_index : Nat
  inclusion_slot : Int
  aggregation_bits : List Nat
  beacon_block_root : Nat
  deriving Repr, DecidableEq

/-- The one exception the source can raise inside the loop: the Python
`IndexError` from `committee_lookup[committee_index]` when the index is
out of range (spec §7, UnknownCommitteeReference). -/
inductive ChainError where
  | unknownCommittee (idx : Nat)
  deriving Repr, DecidableEq

/-- The bits of one byte, most significant bit first: `bitlist` renders a
byte string as its big-endian bit sequence, byte by byte. -/
def byteBitsMSB (b : Nat) : List Bool :=
  [b.testBit 7, b.testBit 6, b.testBit 5, b.testBit 4,
   b.testBit 3, b.testBit 2, b.testBit 1, b.testBit 0]

/-- The decoding expression of line 32 of the source,
`bitlist(attestation[2].tobytes()[::-1])[:-(committee_size+1):-1]`:
reverse the byte string, read it as a bit sequence (MSB first within each
byte, as `bitlist` does), then apply the Python slice `[:-(n+1):-1]`,
which yields the last `min n len` bits in reverse order — that is,
`reverse` then `take n`. -/
def aggregation_bits_decoded (bs : List Nat) (committee_size : Nat) : List Bool :=
  ((bs.reverse.flatMap byteBitsMSB).reverse).take committee_size

/-- The inner loop of lines 35–37 of the source over one committee row:
`for committee_position, bit in enumerate(aggregation_bits): if bit and
(committee_performance[ci][pos] == -1): ... = inclusion_distance`.
Iteration stops with the bit list; cells beyond it are untouched.  (The
bit list never outruns the row in the source, since the decoder takes at
most `committee_size` bits.) -/
def updateRow (d : Int) : List Int → List Bool → List Int
  | row, [] => row
  | [], _ => []
  | c :: cs, b :: bs => (if b && (c == -1) then d else c) :: updateRow d cs bs

/-- Replace the `i`-th row of the table by `f` applied to it, the effect
of the in-place row mutation of line 37.  (An out-of-range `i` is
unreachable in `attestation_performance`: the table is built from
`committee_lookup`, whose bound is checked first.) -/
def modifyAt (t : List (List Int)) (i : Nat) (f : List Int → List Int) :
    List (List Int) :=
  match t[i]? with
  | none => t
  | some row => t.set i (f row)

/-- One iteration of the attestation loop, lines 21–37 of the source:
skip the attestation when its block root fails the canonicality lookup;
otherwise resolve its committee (raising on an unknown index, as the
Python subscript does), decode the aggregation bits against the
committee size, and record `inclusion_slot - slot - 1` in every still
unset cell whose decoded bit is true. -/
def processAttestation (is_canonical : Nat → Bool) (slot : Int)
    (committee_lookup : List (List Nat)) (table : List (List Int))
    (a : Attestation) : Except ChainError (List (List Int)) :=
  if is_canonical a.beacon_block_root = false then
    .ok table
  else
    match committee_lookup[a.committee_index]? with
    | none => .error (.unknownCommittee a.committee_index)
    | some committee =>
      let committee_size := committee.length
      let inclusion_distance := a.inclusion_slot - slot - 1
      let aggregation_bits := aggregation_bits_decoded a.aggregation_bits committee_size
      .ok (modifyAt table a.committee_index
            (fun row => updateRow inclusion_distance row aggregation_bits))

/-- The fold of the attestation loop over the whole attestation list. -/
def runAttestations (is_canonical : Nat → Bool) (slot : Int)
    (committee_lookup : List (List Nat)) :
    List (List Int) → List Attestation → Except ChainError (List (List Int))
  | table, [] => .ok table
  | table, a :: rest =>
    match processAttestation is_canonical slot committee_lookup table a with
    | .error e => .error e
    | .ok t => runAttestations is_canonical slot committee_lookup t rest

/-- Lines 19–20 of the source: the performance table, one row per
committee, every cell initialised to the sentinel -1. -/
def initial_table (committee_lookup : List (List Nat)) : List (List Int) :=
  committee_lookup.map (fun committee => List.replicate committee.length (-1))

/-- The whole of `attestation_performance`: run the loop from the
all-(-1) table, then flatten `committee_lookup` and the table in the
same committee-then-position order and pair them up (lines 40–43).  The
returned pair list is what `dict(zip(validators, performance))` is built
from, in insertion order. -/
def attestation_performance (is_canonical : Nat → Bool) (slot : Int)
    (committee_lookup : List (List Nat)) (attestations : List Attestation) :
    Except ChainError (List (Nat × Int)) :=
  match runAttestations is_canonical slot committee_lookup
      (initial_table committee_lookup) attestations with
  | .error e => .error e
  | .ok table => .ok ((committee_lookup.flatten).zip table.flatten)

/-- One `dict` assignment `m[p.1] = p.2`: the new binding shadows any
older one for the same key. -/
def dictInsertPair (m : Nat → Option Int) (p : Nat × Int) : Nat → Option Int :=
  fun v => if v = p.1 then some p.2 else m v

/-- Python `dict` built from a pair list: later assignments to the same
key override earlier ones, exactly as `dict(zip(...))` behaves on
duplicate keys. -/
def dict_of_pairs (ps : List (Nat × Int)) : Nat → Option Int :=
  ps.foldl dictInsertPair (fun _ => none)

/-- Read one cell of the performance table. -/
def getCell (t : List (List Int)) (ci pos : Nat) : Option Int :=
  (t[ci]?).bind (fun row => row[pos]?)

/-- The decoded bit an attestation contributes at a committee position:
its aggregation bits decoded against the size of the committee it
references, read at that position (false when out of range). -/
def attBit (committee_lookup : List (List Nat)) (a : Attestation) (pos : Nat) :
    Bool :=
  ((aggregation_bits_decoded a.aggregation_bits
      ((committee_lookup[a.committee_index]?.getD []).length))[pos]?).getD false

/-- An attestation marks cell `(ci, pos)` when it survives the
canonicality filter, references committee `ci`, and its decoded bit at
`pos` is true: exactly the condition under which line 36 of the source
can touch that cell. -/
def marks (is_canonical : Nat → Bool) (committee_lookup : List (List Nat))
    (ci pos : Nat) (a : Attestation) : Bool :=
  is_canonical a.beacon_block_root && (a.committee_index == ci)
    && attBit committee_lookup a pos

/-- The decoder the spec's §4.2 words describe: reverse the raw byte
sequence end-to-end, interpret the reversed bytes as a bit sequence, and
take exactly the last `n` bits of that sequence in reverse order. -/
def decode_by_spec (bs : List Nat) (n : Nat) : List Bool :=
  ((bs.reverse.flatMap byteBitsMSB).drop (8 * bs.length - n)).reverse

/-- The bits of one byte, least significant bit first: the order in which
the serialization format stores logical bit-list positions inside a
byte. -/
def byteBitsLSB (b : Nat) : List Bool :=
  [b.testBit 0, b.testBit 1, b.testBit 2, b.testBit 3,
   b.testBit 4, b.testBit 5, b.testBit 6, b.testBit 7]

/-- Table shape invariant: one row per committee, row lengths matching
committee sizes. -/
def TableShape (lookup : List (List Nat)) (t : List (List Int)) : Prop :=
  List.Forall₂ (fun (c : List Nat) (r : List Int) => c.length = r.length) lookup t

theorem reverse_comp_byteBitsMSB :
    (fun b => (byteBitsMSB b).reverse) = byteBitsLSB := by
  funext b
  rfl

theorem flatMap_byteBitsMSB_reverse (bs : List Nat) :
    bs.reverse.flatMap byteBitsMSB = (bs.flatMap byteBitsLSB).reverse := by
  rw [List.flatMap_reverse]
  congr 1

/-- Reversing the byte string, reading MSB-first, re-reversing and taking
is the same as reading each byte LSB-first in byte order and taking:
exactly the serialization format's logical bit layout. -/
theorem aggregation_bits_decoded_eq (bs : List Nat) (n : Nat) :
    aggregation_bits_decoded bs n = (bs.flatMap byteBitsLSB).take n := by
  unfold aggregation_bits_decoded
  rw [flatMap_byteBitsMSB_reverse, List.reverse_reverse]

theorem length_flatMap_byteBitsLSB (bs : List Nat) :
    (bs.flatMap byteBitsLSB).length = 8 * bs.length := by
  induction bs with
  | nil => rfl
  | cons b rest ih =>
    rw [List.flatMap_cons, List.length_append, ih]
    show 8 + 8 * rest.length = 8 * (rest.length + 1)
    omega

theorem aggregation_bits_decoded_length (bs : List Nat) (n : Nat) :
    (aggregation_bits_decoded bs n).length = min n (8 * bs.length) := by
  rw [aggregation_bits_decoded_eq, List.length_take, length_flatMap_byteBitsLSB]

theorem getElem?_flatMap_byteBitsLSB (bs : List Nat) (i : Nat) :
    (bs.flatMap byteBitsLSB)[i]? = (bs[i / 8]?).map (fun b => b.testBit (i % 8)) := by
  induction bs generalizing i with
  | nil => simp
  | cons b rest ih =>
    rw [List.flatMap_cons]
    by_cases h : i < 8
    · have h0 : i / 8 = 0 := Nat.div_eq_of_lt h
      have h1 : i % 8 = i := Nat.mod_eq_of_lt h
      rw [List.getElem?_append_left (by simp [byteBitsLSB]; omega), h0, h1]
      interval_cases i <;> simp [byteBitsLSB]
    · have hlen : (byteBitsLSB b).length ≤ i := by simp [byteBitsLSB]; omega
      rw [List.getElem?_append_right hlen]
      have h1 : i / 8 = (i - 8) / 8 + 1 := by omega
      have h2 : i % 8 = (i - 8) % 8 := by omega
      have h3 : i - (byteBitsLSB b).length = i - 8 := by simp [byteBitsLSB]
      rw [h3, ih, h1, h2, List.getElem?_cons_succ]

/-- Cell-level characterisation of the decoder: bit `i` of the decoded
sequence is bit `i % 8` of byte `i / 8` of the raw payload — the
serialization format's LSB-first layout. -/
theorem aggregation_bits_decoded_getElem? (bs : List Nat) (n i : Nat) (h : i < n) :
    (aggregation_bits_decoded bs n)[i]? =
      (bs[i / 8]?).map (fun b => b.testBit (i % 8)) := by
  rw [aggregation_bits_decoded_eq, List.getElem?_take_of_lt h,
    getElem?_flatMap_byteBitsLSB]

theorem reverse_take_eq_drop_reverse {α : Type} (l : List α) (n : Nat) :
    l.reverse.take n = (l.drop (l.length - n)).reverse := by
  have h := List.rtake_eq_reverse_take_reverse (l := l) (n := n)
  simp only [List.rtake] at h
  rw [h, List.reverse_reverse]

/-- C3: the decoder unconditionally computes what the spec's §4.2 recipe
describes (reverse the bytes, read them as a bit sequence, take the last
`n` bits of it in reverse order), and when the packed vector emitted by
the serialization format carries at least `n` bits it yields exactly `n`
booleans. -/
theorem C3_decoder_refinement (bs : List Nat) (n : Nat) (h : n ≤ 8 * bs.length) :
    aggregation_bits_decoded bs n = decode_by_spec bs n ∧
    (aggregation_bits_decoded bs n).length = n := by
  constructor
  · rw [aggregation_bits_decoded_eq]
    unfold decode_by_spec
    rw [flatMap_byteBitsMSB_reverse]
    have h2 := reverse_take_eq_drop_reverse ((bs.flatMap byteBitsLSB).reverse) n
    rw [List.reverse_reverse] at h2
    rw [h2, List.length_reverse, length_flatMap_byteBitsLSB]
  · rw [aggregation_bits_decoded_length]
    omega

theorem C3_witness :
    (2 ≤ 8 * ([3] : List Nat).length) ∧
    (aggregation_bits_decoded [3] 2 = decode_by_spec [3] 2 ∧
      (aggregation_bits_decoded [3] 2).length = 2) :=
  ⟨by decide, C3_decoder_refinement [3] 2 (by decide)⟩

/-- C8: for any committee size `n ≥ 1`, decoding a well-formed packed
vector whose only logical bit below `n` that is set is position 0 (bit 0
of byte 0 set, logical bits 1 … n-1 clear; the delimiter and padding live
at positions ≥ n) yields `true` at position 0 and `false` at positions
1 … n-1. -/
theorem C8_position_zero_decoding (bs : List Nat) (n : Nat)
    (hn : 1 ≤ n) (hlen : n ≤ 8 * bs.length)
    (h0 : (bs[0]?.getD 0).testBit 0 = true)
    (hrest : ∀ i, i < n → 1 ≤ i → (bs[i / 8]?.getD 0).testBit (i % 8) = false) :
    aggregation_bits_decoded bs n = true :: List.replicate (n - 1) false := by
  apply List.ext_getElem?
  intro i
  by_cases hi : i < n
  · have hdiv : i / 8 < bs.length := by omega
    rw [aggregation_bits_decoded_getElem? bs n i hi, List.getElem?_eq_getElem hdiv]
    cases i with
    | zero =>
      rw [List.getElem?_eq_getElem (show 0 < bs.length by omega)] at h0
      simp only [Option.getD_some] at h0
      simp at h0
      simp [h0]
    | succ j =>
      have hf := hrest (j + 1) hi (by omega)
      rw [List.getElem?_eq_getElem hdiv] at hf
      simp only [Option.getD_some] at hf
      simp only [Option.map_some', hf, List.getElem?_cons_succ]
      rw [List.getElem?_replicate_of_lt (by omega)]
  · have h1 : (aggregation_bits_decoded bs n).length ≤ i := by
      rw [aggregation_bits_decoded_length]
      omega
    have h2 : (true :: List.replicate (n - 1) false).length ≤ i := by
      simp
      omega
    rw [List.getElem?_eq_none h1, List.getElem?_eq_none h2]

theorem C8_witness :
    ((1 ≤ 9 ∧ 9 ≤ 8 * ([1, 2] : List Nat).length) ∧
      (([1, 2] : List Nat)[0]?.getD 0).testBit 0 = true) ∧
    aggregation_bits_decoded [1, 2] 9 = true :: List.replicate 8 false :=
  ⟨⟨⟨by decide, by decide⟩, by decide⟩,
    C8_position_zero_decoding [1, 2] 9 (by decide) (by decide) (by decide)
      (by
        intro i hi
        interval_cases i <;> decide)⟩

theorem updateRow_length (d : Int) (row : List Int) (bits : List Bool) :
    (updateRow d row bits).length = row.length := by
  induction row generalizing bits with
  | nil => cases bits <;> rfl
  | cons c cs ih =>
    cases bits with
    | nil => rfl
    | cons b bsx => simp [updateRow, ih]

/-- Pointwise reading of the inner loop: the cell at `pos` becomes the
inclusion distance exactly when the decoded bit at `pos` is true and the
cell still holds the sentinel. -/
theorem updateRow_getElem? (d : Int) (row : List Int) (bits : List Bool) (pos : Nat) :
    (updateRow d row bits)[pos]? =
      (row[pos]?).map
        (fun c => if bits[pos]?.getD false = true ∧ c = -1 then d else c) := by
  induction row generalizing bits pos with
  | nil => cases bits <;> simp [updateRow]
  | cons c cs ih =>
    cases bits with
    | nil =>
      simp [updateRow]
    | cons b bsx =>
      cases pos with
      | zero => simp [updateRow, Bool.and_eq_true, beq_iff_eq]
      | succ p => simpa [updateRow] using ih bsx p

theorem modifyAt_getElem? (t : List (List Int)) (i : Nat) (f : List Int → List Int)
    (j : Nat) :
    (modifyAt t i f)[j]? = if j = i then (t[i]?).map f else t[j]? := by
  unfold modifyAt
  cases h : t[i]? with
  | none =>
    by_cases hj : j = i
    · subst hj
      simp [h]
    · simp [hj]
  | some row =>
    have hlt : i < t.length := by
      rcases List.getElem?_eq_some_iff.mp h with ⟨hlt, _⟩
      exact hlt
    by_cases hj : j = i
    · subst hj
      rw [List.getElem?_set_self hlt]
      simp [h]
    · rw [List.getElem?_set_ne (fun hne => hj hne.symm), if_neg hj]

/-- One loop iteration, read cell by cell: a cell changes only when the
attestation passes the canonicality filter, references that cell's
committee, has a true decoded bit at that position, and the cell still
holds the sentinel -1 — in which case it becomes
`inclusion_slot - slot - 1`. -/
theorem processAttestation_ok_getCell (is_canonical : Nat → Bool) (slot : Int)
    (committee_lookup : List (List Nat)) (table t' : List (List Int))
    (a : Attestation)
    (h : processAttestation is_canonical slot committee_lookup table a = .ok t')
    (ci pos : Nat) :
    getCell t' ci pos = (getCell table ci pos).map (fun c =>
      if is_canonical a.beacon_block_root = true ∧ a.committee_index = ci ∧
          attBit committee_lookup a pos = true ∧ c = -1
        then a.inclusion_slot - slot - 1 else c) := by
  unfold processAttestation at h
  by_cases hc : is_canonical a.beacon_block_root = false
  · rw [if_pos hc] at h
    injection h with h
    subst h
    cases hcell : getCell table ci pos <;> simp [hc]
  · rw [if_neg hc] at h
    have htrue : is_canonical a.beacon_block_root = true := by
      simpa using hc
    cases hcl : committee_lookup[a.committee_index]? with
    | none =>
      rw [hcl] at h
      simp at h
    | some committee =>
      rw [hcl] at h
      injection h with h
      subst h
      have hbit : attBit committee_lookup a pos =
          (aggregation_bits_decoded a.aggregation_bits
            committee.length)[pos]?.getD false := by
        unfold attBit
        rw [hcl]
        rfl
      by_cases hci : ci = a.committee_index
      · subst hci
        unfold getCell
        rw [modifyAt_getElem?, if_pos rfl]
        cases htab : table[a.committee_index]? with
        | none => simp
        | some row =>
          simp only [Option.map_some', Option.some_bind]
          rw [updateRow_getElem?]
          cases hrow : row[pos]? with
          | none => simp
          | some c =>
            simp only [Option.map_some', Option.some.injEq]
            rw [hbit]
            simp [htrue]
      · have hne : ¬(a.committee_index = ci) := fun hh => hci hh.symm
        unfold getCell
        rw [modifyAt_getElem?, if_neg hci]
        cases htab : table[ci]? with
        | none => simp
        | some row =>
          simp only [Option.some_bind]
          cases hrow : row[pos]? with
          | none => simp
          | some c => simp [hne]

theorem marks_eq_true_iff (B : Nat → Bool) (lookup : List (List Nat))
    (ci pos : Nat) (a : Attestation) :
    marks B lookup ci pos a = true ↔
      B a.beacon_block_root = true ∧ a.committee_index = ci ∧
        attBit lookup a pos = true := by
  unfold marks
  simp [Bool.and_eq_true, beq_iff_eq, and_assoc]

theorem runAttestations_ok_cons (B : Nat → Bool) (slot : Int)
    (lookup : List (List Nat)) (table : List (List Int)) (a : Attestation)
    (rest : List Attestation) (t' : List (List Int))
    (h : runAttestations B slot lookup table (a :: rest) = .ok t') :
    ∃ t1, processAttestation B slot lookup table a = .ok t1 ∧
      runAttestations B slot lookup t1 rest = .ok t' := by
  unfold runAttestations at h
  cases hp : processAttestation B slot lookup table a with
  | error e =>
    rw [hp] at h
    simp at h
  | ok t1 =>
    rw [hp] at h
    exact ⟨t1, rfl, h⟩

/-- Once a cell holds anything other than the sentinel, no later loop
iteration ever changes it. -/
theorem runAttestations_preserves_set_cell (B : Nat → Bool) (slot : Int)
    (lookup : List (List Nat)) (table t' : List (List Int))
    (atts : List Attestation) (ci pos : Nat) (c : Int)
    (h : runAttestations B slot lookup table atts = .ok t')
    (hcell : getCell table ci pos = some c) (hne : c ≠ -1) :
    getCell t' ci pos = some c := by
  induction atts generalizing table with
  | nil =>
    unfold runAttestations at h
    injection h with h
    subst h
    exact hcell
  | cons a rest ih =>
    obtain ⟨t1, hp, hr⟩ := runAttestations_ok_cons _ _ _ _ _ _ _ h
    have hstep := processAttestation_ok_getCell _ _ _ _ _ _ hp ci pos
    rw [hcell] at hstep
    have h1 : getCell t1 ci pos = some c := by
      rw [hstep]
      simp [hne]
    exact ih t1 hr h1

/-- The cell law of the fold: starting from the sentinel, a cell ends up
holding the inclusion distance of the *first* attestation in list order
that marks it (or stays -1 when none does), provided every distance is
non-negative so that a freshly written value is never mistaken for the
sentinel. -/
theorem runAttestations_cell_of_sentinel (B : Nat → Bool) (slot : Int)
    (lookup : List (List Nat)) (table t' : List (List Int))
    (atts : List Attestation) (ci pos : Nat)
    (h : runAttestations B slot lookup table atts = .ok t')
    (hcell : getCell table ci pos = some (-1))
    (hnn : ∀ a ∈ atts, slot + 1 ≤ a.inclusion_slot) :
    getCell t' ci pos = some
      (((atts.filter (marks B lookup ci pos)).head?.map
          (fun m => m.inclusion_slot - slot - 1)).getD (-1)) := by
  induction atts generalizing table with
  | nil =>
    unfold runAttestations at h
    injection h with h
    subst h
    simpa using hcell
  | cons a rest ih =>
    obtain ⟨t1, hp, hr⟩ := runAttestations_ok_cons _ _ _ _ _ _ _ h
    have hstep := processAttestation_ok_getCell _ _ _ _ _ _ hp ci pos
    rw [hcell] at hstep
    by_cases hm : marks B lookup ci pos a = true
    · obtain ⟨hB, hci, hbit⟩ := (marks_eq_true_iff _ _ _ _ _).mp hm
      have h1 : getCell t1 ci pos = some (a.inclusion_slot - slot - 1) := by
        rw [hstep]
        simp [hB, hci, hbit]
      have hd : a.inclusion_slot - slot - 1 ≠ -1 := by
        have := hnn a (List.mem_cons_self a rest)
        omega
      rw [List.filter_cons_of_pos hm]
      simp only [List.head?_cons, Option.map_some', Option.getD_some]
      exact runAttestations_preserves_set_cell _ _ _ _ _ _ _ _ _ hr h1 hd
    · have h1 : getCell t1 ci pos = some (-1) := by
        rw [hstep]
        have hcond : ¬(B a.beacon_block_root = true ∧ a.committee_index = ci ∧
            attBit lookup a pos = true ∧ True) := by
          intro h'
          exact hm ((marks_eq_true_iff _ _ _ _ _).mpr ⟨h'.1, h'.2.1, h'.2.2.1⟩)
        simp only [Option.map_some', eq_self_iff_true]
        rw [if_neg hcond]
      rw [List.filter_cons_of_neg (by simpa using hm)]
      exact ih t1 hr h1 (fun x hx => hnn x (List.mem_cons_of_mem _ hx))

theorem dict_foldl_or (ps : List (Nat × Int)) (m : Nat → Option Int) (v : Nat) :
    (ps.foldl dictInsertPair m) v = ((dict_of_pairs ps) v).or (m v) := by
  induction ps generalizing m with
  | nil => rfl
  | cons p ps ih =>
    rw [List.foldl_cons, ih]
    have h2 : dict_of_pairs (p :: ps) v =
        ((dict_of_pairs ps) v).or (if v = p.1 then some p.2 else none) := by
      show (ps.foldl dictInsertPair (dictInsertPair (fun _ => none) p)) v = _
      rw [ih]
      rfl
    rw [h2]
    cases hD : (dict_of_pairs ps) v with
    | some d => rfl
    | none =>
      by_cases hv : v = p.1
      · simp [dictInsertPair, hv]
      · simp [dictInsertPair, hv]

theorem dict_of_pairs_cons (p : Nat × Int) (ps : List (Nat × Int)) (v : Nat) :
    dict_of_pairs (p :: ps) v =
      ((dict_of_pairs ps) v).or (if v = p.1 then some p.2 else none) := by
  show (ps.foldl dictInsertPair (dictInsertPair (fun _ => none) p)) v = _
  rw [dict_foldl_or]
  rfl

theorem dict_of_pairs_append (xs ys : List (Nat × Int)) (v : Nat) :
    dict_of_pairs (xs ++ ys) v =
      ((dict_of_pairs ys) v).or ((dict_of_pairs xs) v) := by
  show ((xs ++ ys).foldl dictInsertPair (fun _ => none)) v = _
  rw [List.foldl_append, dict_foldl_or]
  rfl

theorem dict_of_pairs_eq_none (ps : List (Nat × Int)) (v : Nat)
    (h : v ∉ ps.map Prod.fst) : dict_of_pairs ps v = none := by
  induction ps with
  | nil => rfl
  | cons p ps ih =>
    rw [dict_of_pairs_cons]
    have h1 : v ∉ ps.map Prod.fst := fun hh => h (by simp [hh])
    have h2 : ¬(v = p.1) := fun hh => h (by simp [hh])
    rw [ih h1, if_neg h2]
    rfl

theorem mem_keys_zip {α β : Type} (as : List α) (bs : List β) (x : α)
    (h : x ∈ (as.zip bs).map Prod.fst) : x ∈ as := by
  induction as generalizing bs with
  | nil => simp [List.zip] at h
  | cons a as ih =>
    cases bs with
    | nil => simp [List.zip] at h
    | cons b bs =>
      rcases List.mem_map.mp h with ⟨p, hp, hx⟩
      rcases List.mem_cons.mp hp with h1 | h1
      · subst h1
        subst hx
        exact List.mem_cons_self _ _
      · exact List.mem_cons_of_mem _ (ih bs (hx ▸ List.mem_map_of_mem Prod.fst h1))

/-- Looking a key up in the dict of a zipped committee: with distinct
validator identifiers inside the committee, the validator at `pos` gets
the row value at `pos`. -/
theorem dict_zip_committee (com : List Nat) (row : List Int) (pos : Nat) (v : Nat)
    (hnd : com.Nodup) (hv : com[pos]? = some v) :
    dict_of_pairs (com.zip row) v = row[pos]? := by
  induction com generalizing row pos with
  | nil => simp at hv
  | cons c cs ih =>
    rcases List.nodup_cons.mp hnd with ⟨hc, hcs⟩
    cases row with
    | nil =>
      rw [List.getElem?_eq_none (by simp)]
      rfl
    | cons r rs =>
      cases pos with
      | zero =>
        rw [List.getElem?_cons_zero] at hv
        injection hv with hv
        subst hv
        rw [List.zip_cons_cons, dict_of_pairs_cons]
        have hnone : dict_of_pairs (cs.zip rs) c = none :=
          dict_of_pairs_eq_none _ _ (fun hk => hc (mem_keys_zip cs rs c hk))
        rw [hnone, if_pos rfl]
        simp
      | succ p =>
        rw [List.getElem?_cons_succ] at hv
        rw [List.zip_cons_cons, dict_of_pairs_cons, ih rs p hcs hv,
          List.getElem?_cons_succ]
        have hvc : ¬(v = c) := by
          intro hh
          subst hh
          exact hc (List.getElem?_mem hv)
        rw [if_neg hvc]
        cases rs[p]? <;> rfl

theorem initial_table_shape (lookup : List (List Nat)) :
    TableShape lookup (initial_table lookup) := by
  induction lookup with
  | nil => exact List.Forall₂.nil
  | cons c cs ih => exact List.Forall₂.cons (by simp) ih

theorem forall₂_set_of_getElem? {α β : Type} {P : α → β → Prop} {f : β → β}
    (hf : ∀ x y, P x y → P x (f y)) {l : List α} {t : List β}
    (h : List.Forall₂ P l t) :
    ∀ (i : Nat) (row : β), t[i]? = some row → List.Forall₂ P l (t.set i (f row)) := by
  induction h with
  | nil =>
    intro i row ht
    simp at ht
  | cons hxy htail ih =>
    intro i row ht
    cases i with
    | zero =>
      rw [List.getElem?_cons_zero] at ht
      injection ht with ht
      subst ht
      exact List.Forall₂.cons (hf _ _ hxy) htail
    | succ j =>
      rw [List.getElem?_cons_succ] at ht
      exact List.Forall₂.cons hxy (ih j row ht)

theorem processAttestation_ok_shape (B : Nat → Bool) (slot : Int)
    (lookup : List (List Nat)) (table t' : List (List Int)) (a : Attestation)
    (h : processAttestation B slot lookup table a = .ok t')
    (hs : TableShape lookup table) : TableShape lookup t' := by
  unfold processAttestation at h
  by_cases hc : B a.beacon_block_root = false
  · rw [if_pos hc] at h
    injection h with h
    subst h
    exact hs
  · rw [if_neg hc] at h
    cases hcl : lookup[a.committee_index]? with
    | none =>
      rw [hcl] at h
      simp at h
    | some committee =>
      rw [hcl] at h
      injection h with h
      subst h
      unfold modifyAt
      cases ht : table[a.committee_index]? with
      | none => exact hs
      | some row =>
        exact forall₂_set_of_getElem?
          (fun x y hxy => by rw [updateRow_length]; exact hxy) hs _ _ ht

theorem runAttestations_ok_shape (B : Nat → Bool) (slot : Int)
    (lookup : List (List Nat)) (table t' : List (List Int))
    (atts : List Attestation)
    (h : runAttestations B slot lookup table atts = .ok t')
    (hs : TableShape lookup table) : TableShape lookup t' := by
  induction atts generalizing table with
  | nil =>
    unfold runAttestations at h
    injection h with h
    subst h
    exact hs
  | cons a rest ih =>
    obtain ⟨t1, hp, hr⟩ := runAttestations_ok_cons _ _ _ _ _ _ _ h
    exact ih t1 hr (processAttestation_ok_shape _ _ _ _ _ _ hp hs)

/-- Looking up a validator in the flattened, zipped result: with globally
distinct validator identifiers, the validator at `(ci, pos)` of the
committee structure receives exactly the table cell at `(ci, pos)`. -/
theorem dict_zip_flatten (pos v : Nat) (lookup : List (List Nat))
    (table : List (List Int)) (hshape : TableShape lookup table) :
    ∀ (ci : Nat) (com : List Nat), lookup.flatten.Nodup →
      lookup[ci]? = some com → com[pos]? = some v →
      dict_of_pairs (lookup.flatten.zip table.flatten) v = getCell table ci pos := by
  induction hshape with
  | nil =>
    intro ci com hnd hcom hv
    simp at hcom
  | @cons com0 row0 cs rs hlen htail ih =>
    intro ci com hnd hcom hv
    rw [List.flatten_cons, List.flatten_cons, List.zip_append hlen,
      dict_of_pairs_append]
    rcases List.nodup_append.mp hnd with ⟨hnd0, hndr, hdisj⟩
    cases ci with
    | zero =>
      rw [List.getElem?_cons_zero] at hcom
      injection hcom with hcom
      subst hcom
      have hnone : dict_of_pairs (cs.flatten.zip rs.flatten) v = none :=
        dict_of_pairs_eq_none _ _ (fun hk =>
          hdisj (List.getElem?_mem hv) (mem_keys_zip _ _ _ hk))
      rw [hnone, Option.none_or, dict_zip_committee com0 row0 pos v hnd0 hv]
      simp [getCell]
    | succ k =>
      rw [List.getElem?_cons_succ] at hcom
      have hvmem : v ∈ cs.flatten :=
        List.mem_flatten.mpr ⟨com, List.getElem?_mem hcom, List.getElem?_mem hv⟩
      have hnone : dict_of_pairs (com0.zip row0) v = none :=
        dict_of_pairs_eq_none _ _ (fun hk => hdisj (mem_keys_zip _ _ _ hk) hvmem)
      rw [hnone, Option.or_none, ih k com hndr hcom hv]
      simp [getCell]

theorem attestation_performance_ok (B : Nat → Bool) (slot : Int)
    (lookup : List (List Nat)) (atts : List Attestation) (ps : List (Nat × Int))
    (h : attestation_performance B slot lookup atts = .ok ps) :
    ∃ table, runAttestations B slot lookup (initial_table lookup) atts = .ok table ∧
      ps = lookup.flatten.zip table.flatten := by
  unfold attestation_performance at h
  cases hr : runAttestations B slot lookup (initial_table lookup) atts with
  | error e =>
    rw [hr] at h
    simp at h
  | ok table =>
    rw [hr] at h
    injection h with h
    exact ⟨table, rfl, h.symm⟩

theorem initial_table_getCell (lookup : List (List Nat)) (ci pos : Nat)
    (com : List Nat) (hcom : lookup[ci]? = some com) (hpos : pos < com.length) :
    getCell (initial_table lookup) ci pos = some (-1) := by
  unfold getCell initial_table
  rw [List.getElem?_map, hcom]
  simp [List.getElem?_replicate_of_lt hpos]

/-- C2: for a validator at `(ci, pos)` covered by at least one canonical
attestation (one that passes the filter, references committee `ci` and
has a true decoded bit at `pos`), the returned value is the distance
`inclusion_slot - slot - 1` of some covering attestation and is a lower
bound of all covering distances — i.e. it is exactly their minimum —
given attestations sorted by ascending inclusion slot, distances that are
non-negative (the protocol-construction invariant of §4.3), and globally
distinct validator identifiers (§3). -/
theorem C2_minimum_inclusion_distance (B : Nat → Bool) (slot : Int)
    (lookup : List (List Nat)) (atts : List Attestation) (ps : List (Nat × Int))
    (ci pos : Nat) (com : List Nat) (v : Nat)
    (hok : attestation_performance B slot lookup atts = .ok ps)
    (hsorted : atts.Pairwise (fun x y => x.inclusion_slot ≤ y.inclusion_slot))
    (hnn : ∀ x ∈ atts, slot + 1 ≤ x.inclusion_slot)
    (hnd : lookup.flatten.Nodup)
    (hcom : lookup[ci]? = some com) (hv : com[pos]? = some v)
    (hmarked : atts.filter (marks B lookup ci pos) ≠ []) :
    ∃ m, m ∈ atts.filter (marks B lookup ci pos) ∧
      dict_of_pairs ps v = some (m.inclusion_slot - slot - 1) ∧
      ∀ x ∈ atts.filter (marks B lookup ci pos),
        m.inclusion_slot - slot - 1 ≤ x.inclusion_slot - slot - 1 := by
  obtain ⟨table, hrun, hps⟩ := attestation_performance_ok _ _ _ _ _ hok
  have hposlt : pos < com.length := (List.getElem?_eq_some_iff.mp hv).1
  have hinit := initial_table_getCell lookup ci pos com hcom hposlt
  have hcell := runAttestations_cell_of_sentinel B slot lookup _ table atts ci pos
    hrun hinit hnn
  cases hfil : atts.filter (marks B lookup ci pos) with
  | nil => exact absurd hfil hmarked
  | cons m ms =>
    refine ⟨m, List.mem_cons_self _ _, ?_, ?_⟩
    · have hshape := runAttestations_ok_shape _ _ _ _ _ _ hrun
        (initial_table_shape lookup)
      have hdict := dict_zip_flatten pos v lookup table hshape ci com hnd hcom hv
      rw [hps, hdict, hcell, hfil]
      simp
    · intro x hx
      have hsub : (atts.filter (marks B lookup ci pos)).Pairwise
          (fun x y => x.inclusion_slot ≤ y.inclusion_slot) :=
        List.Pairwise.sublist (List.filter_sublist atts) hsorted
      rw [hfil] at hsub
      rcases List.mem_cons.mp hx with h1 | h1
      · subst h1
        omega
      · have := (List.pairwise_cons.mp hsub).1 x h1
        omega

theorem C2_witness :
    attestation_performance (fun r => r == 10) 0 [[5, 7]] [⟨0, 2, [5], 10⟩] =
        .ok [(5, 1), (7, -1)] ∧
    ∃ m, m ∈ ([⟨0, 2, [5], 10⟩] : List Attestation).filter
          (marks (fun r => r == 10) [[5, 7]] 0 0) ∧
      dict_of_pairs [(5, 1), (7, -1)] 5 = some (m.inclusion_slot - 0 - 1) ∧
      ∀ x ∈ ([⟨0, 2, [5], 10⟩] : List Attestation).filter
          (marks (fun r => r == 10) [[5, 7]] 0 0),
        m.inclusion_slot - 0 - 1 ≤ x.inclusion_slot - 0 - 1 :=
  ⟨by rfl,
    C2_minimum_inclusion_distance (fun r => r == 10) 0 [[5, 7]]
      [⟨0, 2, [5], 10⟩] [(5, 1), (7, -1)] 0 0 [5, 7] 5 (by rfl)
      (List.pairwise_singleton _ _) (by decide) (by decide) (by rfl) (by rfl)
      (by decide)⟩

theorem updateRow_sentinel (row : List Int) (bits : List Bool) :
    updateRow (-1) row bits = row := by
  induction row generalizing bits with
  | nil => cases bits <;> rfl
  | cons c cs ih =>
    cases bits with
    | nil => rfl
    | cons b bsx =>
      unfold updateRow
      rw [ih]
      by_cases hb : (b && (c == -1)) = true
      · have hc : c = -1 := by
          have := ((Bool.and_eq_true _ _).mp hb).2
          exact beq_iff_eq.mp this
        rw [if_pos hb, hc]
      · rw [if_neg hb]

theorem set_getElem?_self {α : Type} (l : List α) (i : Nat) (x : α)
    (h : l[i]? = some x) : l.set i x = l := by
  induction l generalizing i with
  | nil => rfl
  | cons a as ih =>
    cases i with
    | zero =>
      rw [List.getElem?_cons_zero] at h
      injection h with h
      rw [List.set_cons_zero, h]
    | succ j =>
      rw [List.getElem?_cons_succ] at h
      rw [List.set_cons_succ, ih j h]

/-- C7: every cell of the freshly initialised table holds the sentinel
-1 (when it exists at all), and one loop step over an attestation with a
non-negative inclusion distance either leaves a cell unchanged or moves
it from -1 to a non-negative value — so a cell that already holds a
non-negative value is never overwritten by any later attestation. -/
theorem C7_monotonic_cell_invariant (B : Nat → Bool) (slot : Int)
    (lookup : List (List Nat)) (table t' : List (List Int)) (a : Attestation)
    (ci pos : Nat) (c c' : Int)
    (hnn : slot + 1 ≤ a.inclusion_slot)
    (h : processAttestation B slot lookup table a = .ok t')
    (hc : getCell table ci pos = some c) (hc' : getCell t' ci pos = some c') :
    (getCell (initial_table lookup) ci pos = some (-1) ∨
      getCell (initial_table lookup) ci pos = none) ∧
    (c' = c ∨ (c = -1 ∧ 0 ≤ c')) := by
  constructor
  · unfold getCell initial_table
    rw [List.getElem?_map]
    cases hcl : lookup[ci]? with
    | none => exact Or.inr rfl
    | some com =>
      by_cases hp : pos < com.length
      · exact Or.inl (by simp [List.getElem?_replicate_of_lt hp])
      · refine Or.inr ?_
        simp only [Option.map_some', Option.some_bind]
        rw [List.getElem?_eq_none (by simp; omega)]
  · have hstep := processAttestation_ok_getCell _ _ _ _ _ _ h ci pos
    rw [hc] at hstep
    rw [hc'] at hstep
    injection hstep with hstep
    beta_reduce at hstep
    by_cases hcond : (B a.beacon_block_root = true ∧ a.committee_index = ci ∧
        attBit lookup a pos = true ∧ c = -1)
    · rw [if_pos hcond] at hstep
      exact Or.inr ⟨hcond.2.2.2, by omega⟩
    · rw [if_neg hcond] at hstep
      exact Or.inl hstep

theorem C7_witness :
    ((0 : Int) + 1 ≤ (2 : Int) ∧
      processAttestation (fun r => r == 10) 0 [[5]] [[-1]] ⟨0, 2, [3], 10⟩ =
        .ok [[1]] ∧
      getCell [[-1]] 0 0 = some (-1) ∧ getCell [[1]] 0 0 = some 1) ∧
    ((getCell (initial_table [[5]]) 0 0 = some (-1) ∨
        getCell (initial_table [[5]]) 0 0 = none) ∧
      ((1 : Int) = -1 ∨ ((-1 : Int) = -1 ∧ (0 : Int) ≤ 1))) :=
  ⟨⟨by decide, by rfl, by rfl, by rfl⟩,
    C7_monotonic_cell_invariant (fun r => r == 10) 0 [[5]] [[-1]] [[1]]
      ⟨0, 2, [3], 10⟩ 0 0 (-1) 1 (by decide) (by rfl) (by rfl) (by rfl)⟩

/-- C10: the loop performs no sanity check on `inclusion_slot`: a
marking canonical attestation writes exactly `inclusion_slot - slot - 1`
into a sentinel cell whatever its sign; when `inclusion_slot = slot` the
written value is -1 itself, so the whole table is left unchanged (the
write is indistinguishable from the sentinel and the cell remains
overwritable); and with `inclusion_slot` below the slot the returned
mapping carries a value below -1, as the concrete evaluation at
slot 5 with inclusion slot 3 shows. -/
theorem C10_no_inclusion_slot_check (B : Nat → Bool) (slot : Int)
    (lookup : List (List Nat)) (table t' : List (List Int)) (a : Attestation)
    (ci pos : Nat)
    (h : processAttestation B slot lookup table a = .ok t')
    (hB : B a.beacon_block_root = true) (hci : a.committee_index = ci)
    (hbit : attBit lookup a pos = true)
    (hcell : getCell table ci pos = some (-1)) :
    getCell t' ci pos = some (a.inclusion_slot - slot - 1) ∧
    (a.inclusion_slot = slot → t' = table) ∧
    attestation_performance (fun r => r == 10) 5 [[7]] [⟨0, 3, [3], 10⟩] =
      .ok [(7, -3)] := by
  refine ⟨?_, ?_, by rfl⟩
  · have hstep := processAttestation_ok_getCell _ _ _ _ _ _ h ci pos
    rw [hcell] at hstep
    rw [hstep]
    simp [hB, hci, hbit]
  · intro heq
    unfold processAttestation at h
    rw [if_neg (by simp [hB])] at h
    cases hcl : lookup[a.committee_index]? with
    | none =>
      rw [hcl] at h
      simp at h
    | some committee =>
      rw [hcl] at h
      injection h with h
      subst h
      have hd : a.inclusion_slot - slot - 1 = -1 := by omega
      rw [hd]
      unfold modifyAt
      cases ht : table[a.committee_index]? with
      | none => rfl
      | some row =>
        show table.set a.committee_index
            (updateRow (-1) row
              (aggregation_bits_decoded a.aggregation_bits committee.length)) = table
        rw [updateRow_sentinel, set_getElem?_self _ _ _ ht]

theorem C10_witness :
    (processAttestation (fun r => r == 10) 0 [[5]] [[-1]] ⟨0, 2, [3], 10⟩ =
        .ok [[1]] ∧
      attBit [[5]] ⟨0, 2, [3], 10⟩ 0 = true ∧
      getCell [[-1]] 0 0 = some (-1)) ∧
    (getCell [[1]] 0 0 = some ((2 : Int) - 0 - 1) ∧
      ((2 : Int) = 0 → [[1]] = ([[-1]] : List (List Int))) ∧
      attestation_performance (fun r => r == 10) 5 [[7]] [⟨0, 3, [3], 10⟩] =
        .ok [(7, -3)]) :=
  ⟨⟨by rfl, by rfl, by rfl⟩,
    C10_no_inclusion_slot_check (fun r => r == 10) 0 [[5]] [[-1]] [[1]]
      ⟨0, 2, [3], 10⟩ 0 0 (by rfl) (by rfl) (by rfl) (by rfl) (by rfl)⟩

theorem runAttestations_ne_ok_of_bad (B : Nat → Bool) (slot : Int)
    (lookup : List (List Nat)) (atts : List Attestation) (a : Attestation)
    (ha : a ∈ atts) (hB : B a.beacon_block_root = true)
    (hbad : lookup.length ≤ a.committee_index) :
    ∀ table t', runAttestations B slot lookup table atts ≠ .ok t' := by
  induction atts with
  | nil => exact absurd ha (by simp)
  | cons x rest ih =>
    intro table t' h
    obtain ⟨t1, hp, hr⟩ := runAttestations_ok_cons _ _ _ _ _ _ _ h
    rcases List.mem_cons.mp ha with h1 | h1
    · subst h1
      unfold processAttestation at hp
      rw [if_neg (by simp [hB]), List.getElem?_eq_none hbad] at hp
      simp at hp
    · exact ih h1 t1 t' hr

/-- C5: a canonical attestation whose committee index is outside the
resolved committee range makes the whole call fail (the Python
`IndexError` on `committee_lookup[committee_index]`): no mapping of any
kind is returned. -/
theorem C5_unknown_committee_aborts (B : Nat → Bool) (slot : Int)
    (lookup : List (List Nat)) (atts : List Attestation) (a : Attestation)
    (ha : a ∈ atts) (hB : B a.beacon_block_root = true)
    (hbad : lookup.length ≤ a.committee_index) :
    ∀ ps, attestation_performance B slot lookup atts ≠ .ok ps := by
  intro ps h
  obtain ⟨table, hrun, _⟩ := attestation_performance_ok _ _ _ _ _ h
  exact runAttestations_ne_ok_of_bad _ _ _ _ _ ha hB hbad _ _ hrun

theorem C5_witness :
    ((⟨1, 2, [3], 10⟩ : Attestation) ∈ ([⟨1, 2, [3], 10⟩] : List Attestation) ∧
      (fun r => r == 10) (⟨1, 2, [3], 10⟩ : Attestation).beacon_block_root = true ∧
      ([[5]] : List (List Nat)).length ≤
        (⟨1, 2, [3], 10⟩ : Attestation).committee_index) ∧
    attestation_performance (fun r => r == 10) 0 [[5]] [⟨1, 2, [3], 10⟩] ≠
      .ok [(5, 1)] :=
  ⟨⟨by decide, by decide, by decide⟩,
    C5_unknown_committee_aborts (fun r => r == 10) 0 [[5]] [⟨1, 2, [3], 10⟩]
      ⟨1, 2, [3], 10⟩ (by decide) (by decide) (by decide) [(5, 1)]⟩

/-- C6 fails as stated: with zero committees but a canonical attestation
present, the call raises (unknown committee 0) instead of returning the
empty mapping — the claim's "regardless of what attestations exist" is
refuted by this input. -/
theorem C6_counterexample :
    attestation_performance (fun r => r == 10) 0 []
      [⟨0, 2, [3], 10⟩] = .error (.unknownCommittee 0) := by rfl

theorem runAttestations_all_skipped (B : Nat → Bool) (slot : Int)
    (lookup : List (List Nat)) (table : List (List Int))
    (atts : List Attestation)
    (h : ∀ a ∈ atts, B a.beacon_block_root = false) :
    runAttestations B slot lookup table atts = .ok table := by
  induction atts with
  | nil => rfl
  | cons a rest ih =>
    have hp : processAttestation B slot lookup table a = .ok table := by
      unfold processAttestation
      rw [if_pos (h a (List.mem_cons_self a rest))]
    unfold runAttestations
    rw [hp]
    exact ih (fun x hx => h x (List.mem_cons_of_mem _ hx))

/-- C6 amended: with zero committees the call returns the empty mapping
provided no attestation for the slot passes the canonicality filter (in
particular when there are no attestations at all); a canonical
attestation would instead hit the unknown-committee failure, as
`C6_counterexample` shows. -/
theorem C6_amended_empty_committees (B : Nat → Bool) (slot : Int)
    (atts : List Attestation)
    (h : ∀ a ∈ atts, B a.beacon_block_root = false) :
    attestation_performance B slot [] atts = .ok [] := by
  unfold attestation_performance
  rw [runAttestations_all_skipped _ _ _ _ _ h]
  rfl

theorem C6_witness :
    attestation_performance (fun r => r == 10) 0 [] [⟨0, 2, [3], 99⟩] = .ok [] :=
  C6_amended_empty_committees (fun r => r == 10) 0 [⟨0, 2, [3], 99⟩] (by decide)

theorem runAttestations_ok_of_in_range (B : Nat → Bool) (slot : Int)
    (lookup : List (List Nat)) (atts : List Attestation)
    (h : ∀ a ∈ atts, B a.beacon_block_root = true →
      a.committee_index < lookup.length) :
    ∀ table, ∃ t', runAttestations B slot lookup table atts = .ok t' := by
  induction atts with
  | nil =>
    intro table
    exact ⟨table, rfl⟩
  | cons a rest ih =>
    intro table
    have hp : ∃ t1, processAttestation B slot lookup table a = .ok t1 := by
      unfold processAttestation
      by_cases hB : B a.beacon_block_root = false
      · rw [if_pos hB]
        exact ⟨table, rfl⟩
      · have hBt : B a.beacon_block_root = true := by simpa using hB
        have hlt := h a (List.mem_cons_self a rest) hBt
        rw [if_neg hB, List.getElem?_eq_getElem hlt]
        exact ⟨_, rfl⟩
    obtain ⟨t1, hp⟩ := hp
    obtain ⟨t', ht'⟩ := ih (fun x hx hBx => h x (List.mem_cons_of_mem _ hx) hBx) t1
    refine ⟨t', ?_⟩
    unfold runAttestations
    rw [hp]
    exact ht'

/-- C4 fails as stated: a packed vector of one byte cannot cover a
nine-member committee, yet the call silently truncates (the decoder
yields only 8 booleans) and succeeds instead of surfacing a
malformed-bit-vector error. -/
theorem C4_counterexample :
    8 * ([255] : List Nat).length < 9 ∧
    (aggregation_bits_decoded [255] 9).length = 8 ∧
    attestation_performance (fun r => r == 10) 0 [[1, 2, 3, 4, 5, 6, 7, 8, 9]]
        [⟨0, 2, [255], 10⟩] =
      .ok [(1, 1), (2, 1), (3, 1), (4, 1), (5, 1), (6, 1), (7, 1), (8, 1),
        (9, -1)] :=
  ⟨by decide, by decide, by rfl⟩

/-- C4 amended: there is no malformed-bit-vector error path at all — the
decoder always yields `min n (8·bytes)` booleans, silently truncating a
too-short packed vector, and as long as every canonical attestation's
committee index is in range the call succeeds on any payload. -/
theorem C4_amended_silent_truncation (B : Nat → Bool) (slot : Int)
    (lookup : List (List Nat)) (atts : List Attestation) (bs : List Nat) (n : Nat)
    (h : ∀ a ∈ atts, B a.beacon_block_root = true →
      a.committee_index < lookup.length) :
    (aggregation_bits_decoded bs n).length = min n (8 * bs.length) ∧
    ∃ ps, attestation_performance B slot lookup atts = .ok ps := by
  constructor
  · exact aggregation_bits_decoded_length bs n
  · obtain ⟨table, ht⟩ :=
      runAttestations_ok_of_in_range B slot lookup atts h (initial_table lookup)
    refine ⟨lookup.flatten.zip table.flatten, ?_⟩
    unfold attestation_performance
    rw [ht]

theorem C4_witness :
    (aggregation_bits_decoded [255] 9).length = min 9 (8 * ([255] : List Nat).length) ∧
    ∃ ps, attestation_performance (fun r => r == 10) 0
        [[1, 2, 3, 4, 5, 6, 7, 8, 9]] [⟨0, 2, [255], 10⟩] = .ok ps :=
  C4_amended_silent_truncation (fun r => r == 10) 0 [[1, 2, 3, 4, 5, 6, 7, 8, 9]]
    [⟨0, 2, [255], 10⟩] [255] 9 (by decide)

theorem dict_of_pairs_eq_getLast (ps : List (Nat × Int)) (v : Nat) :
    dict_of_pairs ps v = ((ps.filter (fun p => p.1 == v)).getLast?).map Prod.snd := by
  induction ps using List.reverseRecOn with
  | nil => rfl
  | append_singleton xs p ih =>
    rw [dict_of_pairs_append, List.filter_append, List.getLast?_append]
    have hsingle : dict_of_pairs [p] v = if v = p.1 then some p.2 else none := by
      rw [dict_of_pairs_cons]
      rfl
    by_cases hp : (p.1 == v) = true
    · have hv : v = p.1 := (beq_iff_eq.mp hp).symm
      have hfp : List.filter (fun q => q.1 == v) [p] = [p] := by simp [hp]
      rw [hfp, hsingle, if_pos hv]
      simp
    · have hfp : List.filter (fun q => q.1 == v) [p] = [] := by simp [hp]
      have hv : ¬(v = p.1) := fun hh => hp (beq_iff_eq.mpr hh.symm)
      rw [hfp, hsingle, if_neg hv, ih]
      simp

/-- C9: duplicate validator identifiers never make the call fail (as
long as committee references are in range), the pair list handed to
`dict` is exactly the committee-then-position flattening, and the
resulting dict maps every validator to the value of its *last* pair in
that flattening order — earlier occurrences are silently shadowed. -/
theorem C9_duplicate_validator_last_wins (B : Nat → Bool) (slot : Int)
    (lookup : List (List Nat)) (atts : List Attestation)
    (h : ∀ a ∈ atts, B a.beacon_block_root = true →
      a.committee_index < lookup.length) :
    ∃ table ps,
      attestation_performance B slot lookup atts = .ok ps ∧
      runAttestations B slot lookup (initial_table lookup) atts = .ok table ∧
      ps = lookup.flatten.zip table.flatten ∧
      ∀ v, dict_of_pairs ps v =
        ((ps.filter (fun p => p.1 == v)).getLast?).map Prod.snd := by
  obtain ⟨table, ht⟩ :=
    runAttestations_ok_of_in_range _ _ _ _ h (initial_table lookup)
  refine ⟨table, lookup.flatten.zip table.flatten, ?_, ht, rfl,
    fun v => dict_of_pairs_eq_getLast _ v⟩
  unfold attestation_performance
  rw [ht]

theorem C9_witness :
    ∃ table ps,
      attestation_performance (fun r => r == 10) 0 [[5], [5]]
          [⟨0, 2, [3], 10⟩, ⟨1, 3, [3], 10⟩] = .ok ps ∧
      runAttestations (fun r => r == 10) 0 [[5], [5]]
          (initial_table [[5], [5]]) [⟨0, 2, [3], 10⟩, ⟨1, 3, [3], 10⟩] =
        .ok table ∧
      ps = ([[5], [5]] : List (List Nat)).flatten.zip table.flatten ∧
      ∀ v, dict_of_pairs ps v =
        ((ps.filter (fun p => p.1 == v)).getLast?).map Prod.snd :=
  C9_duplicate_validator_last_wins (fun r => r == 10) 0 [[5], [5]]
    [⟨0, 2, [3], 10⟩, ⟨1, 3, [3], 10⟩] (by decide)

theorem runAttestations_append (B : Nat → Bool) (slot : Int)
    (lookup : List (List Nat)) (t : List (List Int))
    (l1 l2 : List Attestation) :
    runAttestations B slot lookup t (l1 ++ l2) =
      match runAttestations B slot lookup t l1 with
      | .error e => .error e
      | .ok t1 => runAttestations B slot lookup t1 l2 := by
  induction l1 generalizing t with
  | nil => rfl
  | cons a rest ih =>
    cases hp : processAttestation B slot lookup t a with
    | error e => simp [runAttestations, hp]
    | ok t1 => simp [runAttestations, hp, ih]

/-- Two runs under canonicality predicates that agree away from one root
`r` end with the same value in every cell that no `r`-rooted
attestation's decoded bits mark. -/
theorem run_pair_cell_agree (B B' : Nat → Bool) (slot : Int)
    (lookup : List (List Nat)) (r ci pos : Nat)
    (hBB : ∀ x, x ≠ r → B x = B' x) :
    ∀ (atts : List Attestation) (t1 t2 t1' t2' : List (List Int)),
      runAttestations B slot lookup t1 atts = .ok t1' →
      runAttestations B' slot lookup t2 atts = .ok t2' →
      (∀ a ∈ atts, a.beacon_block_root = r →
        (a.committee_index ≠ ci ∨ attBit lookup a pos = false)) →
      getCell t1 ci pos = getCell t2 ci pos →
      getCell t1' ci pos = getCell t2' ci pos := by
  intro atts
  induction atts with
  | nil =>
    intro t1 t2 t1' t2' h1 h2 hr hcell
    unfold runAttestations at h1 h2
    injection h1 with h1
    injection h2 with h2
    subst h1
    subst h2
    exact hcell
  | cons a rest ih =>
    intro t1 t2 t1' t2' h1 h2 hr hcell
    obtain ⟨u1, hp1, hr1⟩ := runAttestations_ok_cons _ _ _ _ _ _ _ h1
    obtain ⟨u2, hp2, hr2⟩ := runAttestations_ok_cons _ _ _ _ _ _ _ h2
    have hs1 := processAttestation_ok_getCell _ _ _ _ _ _ hp1 ci pos
    have hs2 := processAttestation_ok_getCell _ _ _ _ _ _ hp2 ci pos
    have hnext : getCell u1 ci pos = getCell u2 ci pos := by
      rw [hs1, hs2, hcell]
      by_cases hroot : a.beacon_block_root = r
      · rcases hr a (List.mem_cons_self a rest) hroot with hci | hbit
        · congr 1
          funext c
          rw [if_neg (fun hh => hci hh.2.1), if_neg (fun hh => hci hh.2.1)]
        · congr 1
          funext c
          rw [if_neg (fun hh => absurd hh.2.2.1 (by simp [hbit])),
            if_neg (fun hh => absurd hh.2.2.1 (by simp [hbit]))]
      · have hBeq : B a.beacon_block_root = B' a.beacon_block_root := hBB _ hroot
        rw [hBeq]
    exact ih u1 u2 t1' t2' hr1 hr2
      (fun x hx => hr x (List.mem_cons_of_mem _ hx)) hnext

/-- C1 fails in its "differ exactly" clause: here the two inputs differ
only in root 10's canonical flag, the attestation anchored to root 10
marks cell (0, 0) and, under the flag, actually sets it — yet the two
results are identical, because a tying canonical attestation (root 20,
same inclusion slot, same bits) writes the same distance when root 10 is
filtered out.  So the flag flip changes nothing even at a cell the
root-10 attestation sets. -/
theorem C1_counterexample :
    attestation_performance (fun r => r == 10 || r == 20) 0 [[5]]
        [⟨0, 2, [3], 10⟩, ⟨0, 2, [3], 20⟩] = .ok [(5, 1)] ∧
    attestation_performance (fun r => r == 20) 0 [[5]]
        [⟨0, 2, [3], 10⟩, ⟨0, 2, [3], 20⟩] = .ok [(5, 1)] ∧
    ((fun r => r == 10 || r == 20) (10 : Nat) = true ∧
      (fun r => r == 20) (10 : Nat) = false ∧
      (fun r => r == 10 || r == 20) (20 : Nat) = (fun r => r == 20) (20 : Nat)) ∧
    attBit [[5]] ⟨0, 2, [3], 10⟩ 0 = true ∧
    processAttestation (fun r => r == 10 || r == 20) 0 [[5]]
        (initial_table [[5]]) ⟨0, 2, [3], 10⟩ = .ok [[1]] :=
  ⟨by rfl, by rfl, ⟨by decide, by decide, by decide⟩, by rfl, by rfl⟩

/-- C1 amended: (1) an attestation whose block root fails the
canonicality lookup has zero effect — the run with it present returns
exactly the run with it removed; (2) two runs whose canonicality
predicates differ only at one root agree on every cell that none of that
root's attestations' decoded bits mark: the difference is confined to
the marked cells (it need not cover all of them, as
`C1_counterexample`'s tie shows). -/
theorem C1_amended_canonicality_filter :
    (∀ (B : Nat → Bool) (slot : Int) (lookup : List (List Nat))
        (pre post : List Attestation) (a : Attestation),
        B a.beacon_block_root = false →
        attestation_performance B slot lookup (pre ++ a :: post) =
          attestation_performance B slot lookup (pre ++ post)) ∧
    (∀ (B B' : Nat → Bool) (slot : Int) (lookup : List (List Nat))
        (atts : List Attestation) (r : Nat) (t t' : List (List Int)) (ci pos : Nat),
        (∀ x, x ≠ r → B x = B' x) →
        runAttestations B slot lookup (initial_table lookup) atts = .ok t →
        runAttestations B' slot lookup (initial_table lookup) atts = .ok t' →
        (∀ a ∈ atts, a.beacon_block_root = r →
          (a.committee_index ≠ ci ∨ attBit lookup a pos = false)) →
        getCell t ci pos = getCell t' ci pos) := by
  constructor
  · intro B slot lookup pre post a hB
    unfold attestation_performance
    rw [runAttestations_append, runAttestations_append]
    cases h1 : runAttestations B slot lookup (initial_table lookup) pre with
    | error e => rfl
    | ok t1 =>
      have hp : processAttestation B slot lookup t1 a = .ok t1 := by
        unfold processAttestation
        rw [if_pos hB]
      simp [runAttestations, hp]
  · intro B B' slot lookup atts r t t' ci pos hBB h1 h2 hr
    exact run_pair_cell_agree B B' slot lookup r ci pos hBB atts _ _ t t'
      h1 h2 hr rfl

theorem C1_witness :
    (attestation_performance (fun r => r == 20) 0 [[5]]
        [⟨0, 2, [3], 10⟩, ⟨0, 2, [3], 20⟩] =
      attestation_performance (fun r => r == 20) 0 [[5]] [⟨0, 2, [3], 20⟩]) ∧
    getCell [[1]] 0 1 = getCell [[-1]] 0 1 :=
  ⟨C1_amended_canonicality_filter.1 (fun r => r == 20) 0 [[5]] []
      [⟨0, 2, [3], 20⟩] ⟨0, 2, [3], 10⟩ (by decide),
    C1_amended_canonicality_filter.2 (fun r => r == 10 || r == 20)
      (fun r => r == 20) 0 [[5]] [⟨0, 2, [3], 10⟩] 10 [[1]] [[-1]] 0 1
      (by
        intro x hx
        simp [hx])
      (by rfl) (by rfl) (by decide)⟩

example : aggregation_bits_decoded [3] 1 = [true] := by decide
example : aggregation_bits_decoded [255] 9 = List.replicate 8 true := by decide
example :
    attestation_performance (fun r => r == 10) 0 [[5]]
      [⟨0, 2, [3], 10⟩] = .ok [(5, 1)] := by rfl
example :
    attestation_performance (fun r => r == 10) 0 [[5]]
      [⟨1, 2, [3], 10⟩] = .error (.unknownCommittee 1) := by rfl
